import Mathlib

/-!
Shallow embedding of the pattern routing and dispatch engine of the
`elysia-microservice` repository, centred on
`packages/core/src/patterns/matcher.ts` (the `PatternMatcher` class with
guards, middleware and groups), `packages/core/src/patterns/message.ts`
(`createRegistry`) and `packages/core/src/protocol/frame.ts`
(`encode` / `decode`).

Modelling conventions:
* JavaScript values flowing through the dispatcher (payloads, thrown
  errors, context objects) are modelled by the inductive type `Val`;
  plain objects are association lists `Obj := List (String × Val)`
  (first binding of a key wins on lookup, `Object.assign` replaces in
  place or appends, mirroring JS key update semantics).
* Async handlers / guards / middleware are sequentially awaited in the
  source, so within one invocation they are ordinary functions
  returning `Except Val α` (`Except.error` models `throw`).
* Execution order is made observable by an event trace (`List Ev`):
  each executed guard / middleware phase / hook / handler appends one
  event, including the phase that throws.
* User-supplied regular expressions (`/body/flags` patterns) are kept
  abstract: every function that needs to test one takes an `Eng`
  (engine) argument `body → flags → input → Bool`.  The glob
  translation (`*` → `.*` inside `^...$`, all other characters
  escaped) is embedded concretely as `globMatches`; the JS `.` does
  not match line terminators, a corner irrelevant for dot-delimited
  topic names and not modelled here.
* The optional `onError` hook is declared `(err, ctx) => void` in the
  source and is purely observational; it is modelled as a Bool flag
  plus an `Ev.errorHook` trace event.
-/

namespace ElysiaMS

/-- JavaScript/JSON values: the payloads, errors and context fields the
dispatcher moves around. -/
inductive Val where
  | vundef : Val
  | vnull : Val
  | vbool : Bool → Val
  | vnum : Int → Val
  | vstr : String → Val
  | varr : List Val → Val
  | vobj : List (String × Val) → Val

/-- A JS plain object, as an insertion-ordered association list. -/
abbrev Obj := List (String × Val)

/-- Property lookup: first binding of the key wins. -/
def olookup : Obj → String → Option Val
  | [], _ => none
  | (k, v) :: rest, key => if k = key then some v else olookup rest key

/-- Set one property, replacing an existing binding in place (JS key
update keeps the original key position) or appending a fresh one. -/
def oset : Obj → String → Val → Obj
  | [], k, v => [(k, v)]
  | (k0, v0) :: rest, k, v =>
      if k0 = k then (k, v) :: rest else (k0, v0) :: oset rest k v

/-- `Object.assign(target, src)`: every binding of `src` is written
into `target`, left to right. -/
def oassign (t : Obj) (s : Obj) : Obj :=
  s.foldl (fun acc kv => oset acc kv.1 kv.2) t

/-- One piece of a compiled glob pattern: a literal character (every
regex metacharacter except `*` is escaped by `globToRegex`, so each
non-star character matches itself) or a star (compiled to `.*`). -/
inductive GlobPart where
  | lit : Char → GlobPart
  | star : GlobPart

/-- Embedding of `globToRegex`: the anchored regex built from a glob
pattern is equivalent to this part list. -/
def globParse : List Char → List GlobPart
  | [] => []
  | c :: cs => (if c = '*' then GlobPart.star else GlobPart.lit c) :: globParse cs

/-- Does the predicate hold of some suffix of the list (including the
list itself and the empty suffix)? -/
def anySuffix (m : List Char → Bool) : List Char → Bool
  | [] => m []
  | d :: ds => m (d :: ds) || anySuffix m ds

/-- Matching semantics of the anchored regex `^escaped$` produced by
`globToRegex`: literals match themselves, each `*` (compiled to `.*`)
matches any character sequence — a star consumes an arbitrary prefix,
so `star :: ps` matches exactly when `ps` matches some suffix. -/
def globMatches : List GlobPart → List Char → Bool
  | [], cs => cs.isEmpty
  | GlobPart.lit _ :: _, [] => false
  | GlobPart.lit c :: ps, d :: ds => c = d && globMatches ps ds
  | GlobPart.star :: ps, cs => anySuffix (globMatches ps) cs

/-- Does the pattern contain a `*` (JS `pattern.includes('*')`). -/
def hasStar (p : String) : Bool := p.data.any (fun c => c = '*')

/-- Split a list at the first occurrence of `c`: returns the part
before and the part after, or `none` when `c` does not occur. -/
def splitFirst (c : Char) : List Char → Option (List Char × List Char)
  | [] => none
  | x :: xs =>
      if x = c then some ([], xs)
      else (splitFirst c xs).map (fun pr => (x :: pr.1, pr.2))

/-- The `/body/flags` decomposition used by `compile`: the pattern must
start with `/` and its `lastIndexOf('/')` must be positive; the body is
everything strictly between the first and the last slash, the flags
everything after the last slash.  (Splitting the reversed tail at its
first `/` finds the last `/` of the tail.) -/
def regexFormSplit (p : String) : Option (String × String) :=
  match p.data with
  | '/' :: rest =>
      match splitFirst '/' rest.reverse with
      | some (rf, rb) => some (String.mk rb.reverse, String.mk rf.reverse)
      | none => none
  | _ => none

/-- A compiled matcher (the `RegExp` stored in an entry): the universal
`/^.*$/`, a compiled glob, or a user regular expression kept abstract
as its body and flags. -/
inductive Rgx where
  | universal : Rgx
  | glob : List GlobPart → Rgx
  | user : String → String → Rgx

/-- A regex engine deciding user-supplied `/body/flags` patterns:
`eng body flags input`. -/
abbrev Eng := String → String → String → Bool

/-- `regex.test(input)` for a compiled matcher. -/
def rtest (eng : Eng) : Rgx → String → Bool
  | Rgx.universal, _ => true
  | Rgx.glob ps, s => globMatches ps s.data
  | Rgx.user b fl, s => eng b fl s

/-- `PatternMatcher.compile`: `{any}` / `.*` become the universal
matcher, then `/body/flags` patterns compile as user regexes, then
patterns containing `*` compile as globs, and everything else is an
exact-only entry with no compiled matcher. -/
def compile (p : String) : Option Rgx :=
  if p = "{any}" ∨ p = ".*" then some Rgx.universal
  else
    match regexFormSplit p with
    | some (b, fl) => some (Rgx.user b fl)
    | none => if hasStar p then some (Rgx.glob (globParse p.data)) else none

/-- `PatternMatcher.score`: 0 for the universal patterns, otherwise the
length of the pattern with every `*` removed
(`pattern.replace(/\*\x2fg, '').length`). -/
def score (p : String) : Nat :=
  if p = "{any}" ∨ p = ".*" then 0
  else (p.data.filter (fun c => c ≠ '*')).length

/-- A guard (`GuardFunction`): may only throw to block. -/
structure Guard where
  id : Nat
  run : Obj → Except Val Unit

/-- A middleware with optional `onBefore` (may enrich the context by
returning an object, or throw) and optional `onAfter` phases. -/
structure Middleware where
  id : Nat
  onBefore : Option (Obj → Except Val (Option Obj))
  onAfter : Option (Obj → Val → Except Val Unit)

/-- A legacy before hook. -/
structure BHook where
  id : Nat
  run : Obj → Except Val Unit

/-- A legacy after hook (receives context and response). -/
structure AHook where
  id : Nat
  run : Obj → Val → Except Val Unit

/-- Legacy `Hooks` record: ordered before/after hook lists. -/
structure Hooks where
  onBefore : List BHook
  onAfter : List AHook

/-- The empty hooks record (`{}`). -/
def Hooks.empty : Hooks := { onBefore := [], onAfter := [] }

/-- One registration (`Entry`): the literal pattern, the handler, the
compiled matcher (`none` for exact-only entries), the specificity
score, optional per-handler hooks and the per-handler middleware
list. -/
structure Entry where
  pattern : String
  handler : Obj → Except Val Val
  regex : Option Rgx
  score : Nat
  hooks : Option Hooks
  middleware : List Middleware

/-- A prefix group (`GroupBuilder` state): its key string plus its own
guard and middleware lists. -/
structure Group where
  pfx : String
  guards : List Guard
  middleware : List Middleware

/-- The `PatternMatcher` state: the insertion-ordered registry (a JS
`Map` keyed by the literal pattern), the optional fallback, legacy
hooks, whether an `onError` hook is installed, global guards and
middleware, and the insertion-ordered group map. -/
structure Matcher where
  registry : List Entry
  fallback : Option (Obj → Except Val Val)
  hooks : Hooks
  onError : Bool
  globalGuards : List Guard
  globalMiddleware : List Middleware
  groups : List Group

/-- A fresh `PatternMatcher`. -/
def Matcher.empty : Matcher :=
  { registry := [], fallback := none, hooks := Hooks.empty, onError := false,
    globalGuards := [], globalMiddleware := [], groups := [] }

/-- `Map.get`: the unique entry registered under this literal pattern. -/
def registryGet : List Entry → String → Option Entry
  | [], _ => none
  | e :: rest, p => if e.pattern = p then some e else registryGet rest p

/-- `Map.set`: replace the entry with the same pattern in place
(keeping its insertion position) or append a fresh one. -/
def setEntry : List Entry → Entry → List Entry
  | [], e => [e]
  | x :: xs, e => if x.pattern = e.pattern then e :: xs else x :: setEntry xs e

/-- `PatternMatcher.on`: register a handler for a pattern, compiling
the pattern and computing its score. -/
def Matcher.on (m : Matcher) (p : String) (h : Obj → Except Val Val)
    (hks : Option Hooks) : Matcher :=
  let e : Entry :=
    { pattern := p, handler := h, regex := compile p, score := score p,
      hooks := hks, middleware := [] }
  { m with registry := setEntry m.registry e }

/-- `PatternMatcher.onFallback`: store the single catch-all handler
(overwrite). -/
def Matcher.onFallback (m : Matcher) (h : Obj → Except Val Val) : Matcher :=
  { m with fallback := some h }

/-- `PatternMatcher.addGlobalGuard`. -/
def Matcher.addGlobalGuard (m : Matcher) (g : Guard) : Matcher :=
  { m with globalGuards := m.globalGuards ++ [g] }

/-- `PatternMatcher.addGlobalMiddleware`. -/
def Matcher.addGlobalMiddleware (m : Matcher) (mw : Middleware) : Matcher :=
  { m with globalMiddleware := m.globalMiddleware ++ [mw] }

/-- `PatternMatcher.createGroup`: create the group if absent (an
existing group with the same key is returned unchanged). -/
def Matcher.createGroup (m : Matcher) (key : String) : Matcher :=
  if m.groups.any (fun g => g.pfx = key) then m
  else { m with groups := m.groups ++ [{ pfx := key, guards := [], middleware := [] }] }

/-- `GroupBuilder.msGuard` through the cached builder: push a guard
onto the named group. -/
def Matcher.groupAddGuard (m : Matcher) (key : String) (g : Guard) : Matcher :=
  { m with groups := m.groups.map (fun gr =>
      if gr.pfx = key then { gr with guards := gr.guards ++ [g] } else gr) }

/-- `GroupBuilder.msMiddleware` through the cached builder: push a
middleware onto the named group. -/
def Matcher.groupAddMiddleware (m : Matcher) (key : String) (mw : Middleware) : Matcher :=
  { m with groups := m.groups.map (fun gr =>
      if gr.pfx = key then { gr with middleware := gr.middleware ++ [mw] } else gr) }

/-- `PatternMatcher.setHandlerMiddleware`: overwrite the middleware
list of the entry registered under the pattern, if any. -/
def Matcher.setHandlerMiddleware (m : Matcher) (p : String) (mws : List Middleware) : Matcher :=
  { m with registry := m.registry.map (fun e =>
      if e.pattern = p then { e with middleware := mws } else e) }

/-- Does an entry's compiled matcher accept the incoming pattern
(entries without a compiled matcher are skipped by the scan). -/
def entryMatches (eng : Eng) (e : Entry) (p : String) : Bool :=
  match e.regex with
  | some r => rtest eng r p
  | none => false

/-- One step of the wildcard/greedy scan loop: replace the current
best only by a matching entry with a strictly greater score. -/
def stepBest (eng : Eng) (p : String) (best : Option Entry) (e : Entry) : Option Entry :=
  if entryMatches eng e p then
    match best with
    | none => some e
    | some b => if e.score > b.score then some e else some b
  else best

/-- The scan loop of `resolve`, in insertion order. -/
def findBestAux (eng : Eng) (p : String) : List Entry → Option Entry → Option Entry
  | [], best => best
  | e :: rest, best => findBestAux eng p rest (stepBest eng p best e)

/-- The wildcard/greedy scan of `resolve`. -/
def findBest (eng : Eng) (rs : List Entry) (p : String) : Option Entry :=
  findBestAux eng p rs none

/-- Outcome of `PatternMatcher.resolve`: a wrapped entry together with
the reported `matchedPattern`, the synthetic fallback closure (with
`matchedPattern = null`), or `{handler: null, matchedPattern: null}`. -/
inductive Resolution where
  | handler : Entry → String → Resolution
  | fallbackH : Resolution
  | nohandler : Resolution

/-- The `matchedPattern` component of a resolution. -/
def matchedPatternOf : Resolution → Option String
  | Resolution.handler _ mp => some mp
  | _ => none

/-- `PatternMatcher.resolve`: exact map lookup first, then the
insertion-ordered scan keeping the strictly-highest score, then the
fallback. -/
def resolve (m : Matcher) (eng : Eng) (p : String) : Resolution :=
  match registryGet m.registry p with
  | some e => Resolution.handler e p
  | none =>
      match findBest eng m.registry p with
      | some b => Resolution.handler b b.pattern
      | none =>
          if m.fallback.isSome then Resolution.fallbackH else Resolution.nohandler

/-- Observable execution events of one dispatch invocation: which
guard / middleware phase / legacy hook / handler ran (in trace order),
and notifications of the installed `onError` hook. -/
inductive Ev where
  | guard : Nat → Ev
  | mwBefore : Nat → Ev
  | mwAfter : Nat → Ev
  | hookBefore : Nat → Ev
  | hookAfter : Nat → Ev
  | handlerRun : Ev
  | fallbackRun : Ev
  | errorHook : Val → Ev

/-- Sequencing of traced, throwing computations: on error the
remaining phases are skipped (the surrounding `try` aborts). -/
def evbind {α β : Type} (x : List Ev × Except Val α)
    (f : α → List Ev × Except Val β) : List Ev × Except Val β :=
  match x with
  | (tr, Except.error e) => (tr, Except.error e)
  | (tr, Except.ok a) =>
      match f a with
      | (tr2, r) => (tr ++ tr2, r)

/-- Run a guard list in order; a throwing guard stops the phase. -/
def runGuardList (gs : List Guard) (ctx : Obj) : List Ev × Except Val Unit :=
  match gs with
  | [] => ([], Except.ok ())
  | g :: rest =>
      match g.run ctx with
      | Except.ok _ =>
          match runGuardList rest ctx with
          | (tr, r) => (Ev.guard g.id :: tr, r)
      | Except.error e => ([Ev.guard g.id], Except.error e)

/-- The `pattern` field of a context object (a string, or `""` for the
degenerate non-string case). -/
def ctxPattern (ctx : Obj) : String :=
  match olookup ctx "pattern" with
  | some (Val.vstr s) => s
  | _ => ""

/-- The `store` field of a context object, as an object. -/
def storeOf (ctx : Obj) : Obj :=
  match olookup ctx "store" with
  | some (Val.vobj fs) => fs
  | _ => []

/-- `matchesGroupPrefix`: `{any}` matches everything, a star-free key
uses `startsWith`, otherwise the glob translation of the key. -/
def groupKeyMatches (pattern : String) (key : String) : Bool :=
  if key = "{any}" then true
  else if ¬ hasStar key then pattern.startsWith key
  else globMatches (globParse key.data) pattern.data

/-- Run the guard lists of every group whose key matches the context's
pattern, groups in creation order. -/
def runGroupGuards (groups : List Group) (ctx : Obj) : List Ev × Except Val Unit :=
  match groups with
  | [] => ([], Except.ok ())
  | g :: rest =>
      if groupKeyMatches (ctxPattern ctx) g.pfx then
        evbind (runGuardList g.guards ctx) (fun _ => runGroupGuards rest ctx)
      else runGroupGuards rest ctx

/-- Run a middleware list's `onBefore` phases in order, shallow-merging
each returned enrichment object into both the context and the
flattened context (`Object.assign`); a throwing phase stops the
pipeline.  Returns the enriched pair. -/
def runMwBefores (mws : List Middleware) (ctx fullCtx : Obj) :
    List Ev × Except Val (Obj × Obj) :=
  match mws with
  | [] => ([], Except.ok (ctx, fullCtx))
  | mw :: rest =>
      match mw.onBefore with
      | none => runMwBefores rest ctx fullCtx
      | some f =>
          match f ctx with
          | Except.error e => ([Ev.mwBefore mw.id], Except.error e)
          | Except.ok enr =>
              let ctx2 := match enr with
                | some o => oassign ctx o
                | none => ctx
              let full2 := match enr with
                | some o => oassign fullCtx o
                | none => fullCtx
              match runMwBefores rest ctx2 full2 with
              | (tr, r) => (Ev.mwBefore mw.id :: tr, r)

/-- Run the `onBefore` middleware of every matching group, groups in
creation order (the group key is re-tested against the possibly
enriched context's pattern). -/
def runGroupMwBefores (groups : List Group) (ctx fullCtx : Obj) :
    List Ev × Except Val (Obj × Obj) :=
  match groups with
  | [] => ([], Except.ok (ctx, fullCtx))
  | g :: rest =>
      if groupKeyMatches (ctxPattern ctx) g.pfx then
        evbind (runMwBefores g.middleware ctx fullCtx)
          (fun pr => runGroupMwBefores rest pr.1 pr.2)
      else runGroupMwBefores rest ctx fullCtx

/-- Run legacy before hooks in order on the flattened context. -/
def runBHooks (hs : List BHook) (fullCtx : Obj) : List Ev × Except Val Unit :=
  match hs with
  | [] => ([], Except.ok ())
  | h :: rest =>
      match h.run fullCtx with
      | Except.ok _ =>
          match runBHooks rest fullCtx with
          | (tr, r) => (Ev.hookBefore h.id :: tr, r)
      | Except.error e => ([Ev.hookBefore h.id], Except.error e)

/-- Run a middleware list's `onAfter` phases in the list's order. -/
def runMwAfters (mws : List Middleware) (ctx : Obj) (resp : Val) :
    List Ev × Except Val Unit :=
  match mws with
  | [] => ([], Except.ok ())
  | mw :: rest =>
      match mw.onAfter with
      | none => runMwAfters rest ctx resp
      | some f =>
          match f ctx resp with
          | Except.error e => ([Ev.mwAfter mw.id], Except.error e)
          | Except.ok _ =>
              match runMwAfters rest ctx resp with
              | (tr, r) => (Ev.mwAfter mw.id :: tr, r)

/-- Run the `onAfter` middleware of every matching group of the given
(already reversed) group list, each group's middleware reversed. -/
def runGroupMwAfters (groups : List Group) (ctx : Obj) (resp : Val) :
    List Ev × Except Val Unit :=
  match groups with
  | [] => ([], Except.ok ())
  | g :: rest =>
      if groupKeyMatches (ctxPattern ctx) g.pfx then
        evbind (runMwAfters g.middleware.reverse ctx resp)
          (fun _ => runGroupMwAfters rest ctx resp)
      else runGroupMwAfters rest ctx resp

/-- Run legacy after hooks in order on the context and the response. -/
def runAHooks (hs : List AHook) (ctx : Obj) (resp : Val) : List Ev × Except Val Unit :=
  match hs with
  | [] => ([], Except.ok ())
  | h :: rest =>
      match h.run ctx resp with
      | Except.ok _ =>
          match runAHooks rest ctx resp with
          | (tr, r) => (Ev.hookAfter h.id :: tr, r)
      | Except.error e => ([Ev.hookAfter h.id], Except.error e)

/-- The before-hook list of an optional per-handler hooks record
(`entry.hooks?.onBefore || []`). -/
def hooksOnBefore : Option Hooks → List BHook
  | some h => h.onBefore
  | none => []

/-- The after-hook list of an optional per-handler hooks record. -/
def hooksOnAfter : Option Hooks → List AHook
  | some h => h.onAfter
  | none => []

/-- The `onError` notification appended by a `catch` block (empty when
no error hook is installed). -/
def errEvents (m : Matcher) (e : Val) : List Ev :=
  if m.onError then [Ev.errorHook e] else []

/-- The `try` body of `wrapWithHooks`: global guards, group guards,
global / group / handler middleware `onBefore` (with enrichment
threading), legacy before hooks, the handler, handler / group /
global middleware `onAfter` (the latter two in reverse order), legacy
after hooks; the handler's response is returned. -/
def wrapInner (m : Matcher) (e : Entry) (ctx0 : Obj) : List Ev × Except Val Val :=
  evbind (runGuardList m.globalGuards ctx0) (fun _ =>
  evbind (runGroupGuards m.groups ctx0) (fun _ =>
  evbind (runMwBefores m.globalMiddleware ctx0 (oassign ctx0 (storeOf ctx0))) (fun pr1 =>
  evbind (runGroupMwBefores m.groups pr1.1 pr1.2) (fun pr2 =>
  evbind (runMwBefores e.middleware pr2.1 pr2.2) (fun pr3 =>
  evbind (runBHooks (m.hooks.onBefore ++ hooksOnBefore e.hooks) pr3.2) (fun _ =>
  evbind ([Ev.handlerRun], e.handler pr3.2) (fun resp =>
  evbind (runMwAfters e.middleware pr3.1 resp) (fun _ =>
  evbind (runGroupMwAfters m.groups.reverse pr3.1 resp) (fun _ =>
  evbind (runMwAfters m.globalMiddleware.reverse pr3.1 resp) (fun _ =>
  evbind (runAHooks (m.hooks.onAfter ++ hooksOnAfter e.hooks) pr3.1 resp) (fun _ =>
  ([], Except.ok resp))))))))))))

/-- `wrapWithHooks`: the `try` body plus the `catch` block that
notifies the optional `onError` hook and always rethrows. -/
def wrapRun (m : Matcher) (e : Entry) (ctx0 : Obj) : List Ev × Except Val Val :=
  match wrapInner m e ctx0 with
  | (tr, Except.ok v) => (tr, Except.ok v)
  | (tr, Except.error err) => (tr ++ errEvents m err, Except.error err)

/-- The message of the `Error` thrown when resolution fails. -/
def noHandlerMsg (p : String) : String :=
  "No handler found for pattern \"" ++ p ++ "\""

/-- The message context built by `resolveAndRun` — note its `pattern`
field is the incoming pattern, not the matched one. -/
def mkMessageCtx (p : String) (data : Val) (meta : Val) (store : Obj) : Obj :=
  [("pattern", Val.vstr p), ("data", data), ("meta", meta),
   ("store", Val.vobj store)]

/-- The context built by `runFallback`: the original pattern is
preserved both as `pattern` and as the extra `incoming` field. -/
def fallbackCtx (p : String) (data : Val) (meta : Val) (store : Obj) : Obj :=
  [("pattern", Val.vstr p), ("data", data), ("meta", meta),
   ("incoming", Val.vstr p), ("store", Val.vobj store)]

/-- `runFallback`: guard the fallback with the global legacy hooks and
the usual notify-then-rethrow `catch`. -/
def runFallback (m : Matcher) (p : String) (data : Val) (meta : Val)
    (store : Obj) : List Ev × Except Val Val :=
  match m.fallback with
  | none => ([], Except.error (Val.vstr "No fallback registered"))
  | some fb =>
      let fctx := fallbackCtx p data meta store
      let inner :=
        evbind (runBHooks m.hooks.onBefore fctx) (fun _ =>
        evbind ([Ev.fallbackRun], fb fctx) (fun resp =>
        evbind (runAHooks m.hooks.onAfter fctx resp) (fun _ =>
        ([], Except.ok resp))))
      match inner with
      | (tr, Except.ok v) => (tr, Except.ok v)
      | (tr, Except.error err) => (tr ++ errEvents m err, Except.error err)

/-- `PatternMatcher.resolveAndRun`: resolve, throw a named error when
nothing resolves, otherwise run the wrapped handler (or the synthetic
fallback closure) on the freshly built message context, notifying the
optional `onError` hook and rethrowing on failure. -/
def resolveAndRun (m : Matcher) (eng : Eng) (p : String) (data : Val)
    (meta : Val) (store : Obj) : List Ev × Except Val Val :=
  match resolve m eng p with
  | Resolution.nohandler => ([], Except.error (Val.vstr (noHandlerMsg p)))
  | Resolution.handler e _ =>
      match wrapRun m e (mkMessageCtx p data meta store) with
      | (tr, Except.ok v) => (tr, Except.ok v)
      | (tr, Except.error err) => (tr ++ errEvents m err, Except.error err)
  | Resolution.fallbackH =>
      match runFallback m p data meta store with
      | (tr, Except.ok v) => (tr, Except.ok v)
      | (tr, Except.error err) => (tr ++ errEvents m err, Except.error err)

/-- `createRegistry` state: two independent matchers, one for
request/response messages and one for fire-and-forget events. -/
structure Registry where
  requests : Matcher
  events : Matcher

/-- A fresh registry. -/
def Registry.empty : Registry :=
  { requests := Matcher.empty, events := Matcher.empty }

/-- `registry.registerMessage`. -/
def registerMessage (r : Registry) (p : String) (h : Obj → Except Val Val)
    (hks : Option Hooks) : Registry :=
  { r with requests := Matcher.on r.requests p h hks }

/-- `registry.registerEvent`. -/
def registerEvent (r : Registry) (p : String) (h : Obj → Except Val Val)
    (hks : Option Hooks) : Registry :=
  { r with events := Matcher.on r.events p h hks }

/-- `registry.resolveAndRunRequest`: delegate to the request matcher. -/
def resolveAndRunRequest (r : Registry) (eng : Eng) (p : String) (data : Val)
    (meta : Val) (store : Obj) : List Ev × Except Val Val :=
  resolveAndRun r.requests eng p data meta store

/-- `registry.resolveAndRunEvent`: delegate to the event matcher — the
delegation passes the handler's resolved value straight through. -/
def resolveAndRunEvent (r : Registry) (eng : Eng) (p : String) (data : Val)
    (meta : Val) (store : Obj) : List Ev × Except Val Val :=
  resolveAndRun r.events eng p data meta store

/-! ## Frame codec (`packages/core/src/protocol/frame.ts`)

Buffers are byte lists.  The JSON serialization of the payload
(`JSON.stringify` / `JSON.parse`, platform builtins outside this
repository) is kept abstract: `encode`/`decode` are parametric in a
serializer `Val → List Nat` and a parser `List Nat → Option Val`
(`JSON.parse` throws on malformed bytes). -/

/-- `buffer.writeUInt32BE(n, 0)`: the four big-endian bytes of `n`
(the JS call throws a range error for `n ≥ 2^32`, handled by the
bound check in `encode`). -/
def writeUInt32BE (n : Nat) : List Nat :=
  [n / 2 ^ 24 % 256, n / 2 ^ 16 % 256, n / 2 ^ 8 % 256, n % 256]

/-- `buffer.readUInt32BE(0)`. -/
def readUInt32BE (b : List Nat) : Nat :=
  b.getD 0 0 * 2 ^ 24 + b.getD 1 0 * 2 ^ 16 + b.getD 2 0 * 2 ^ 8 + b.getD 3 0

/-- `encode(obj)`: serialize, prefix the payload with its 4-byte
big-endian length, return the concatenation (`none` models the range
error thrown for payloads of 2^32 bytes or more). -/
def encode (stringifyBytes : Val → List Nat) (obj : Val) : Option (List Nat) :=
  if (stringifyBytes obj).length < 2 ^ 32 then
    some (writeUInt32BE (stringifyBytes obj).length ++ stringifyBytes obj)
  else none

/-- `decode(buffer)`: read the 4-byte big-endian length, parse the
`length` bytes that follow (`buffer.subarray(4, 4 + length)`). -/
def decode (parseBytes : List Nat → Option Val) (buffer : List Nat) : Option Val :=
  parseBytes ((buffer.drop 4).take (readUInt32BE buffer))

/-! ## Claim-side descriptions of the `onAfter` trace -/

/-- Events produced by running a middleware list's `onAfter` phases in
the list's order (middleware without `onAfter` produce nothing). -/
def mwAfterEvs (mws : List Middleware) : List Ev :=
  mws.filterMap (fun mw => mw.onAfter.map (fun _ => Ev.mwAfter mw.id))

/-- Events produced by the group `onAfter` sweep over an (already
reversed) group list: matching groups contribute their reversed
middleware lists. -/
def groupMwAfterEvs (groups : List Group) (pat : String) : List Ev :=
  (groups.map (fun g =>
    if groupKeyMatches pat g.pfx then mwAfterEvs g.middleware.reverse else [])).flatten

/-- Events produced by running a legacy after-hook list in order. -/
def aHookEvs (hs : List AHook) : List Ev :=
  hs.map (fun h => Ev.hookAfter h.id)

/-- The complete post-handler trace of a successful invocation:
handler-level middleware `onAfter` in registration order, then group
middleware `onAfter` with groups in reverse creation order and
middleware within a group in reverse registration order, then global
middleware `onAfter` in reverse registration order, then the legacy
after hooks (global then per-handler). -/
def afterEvs (m : Matcher) (ent : Entry) (pat : String) : List Ev :=
  mwAfterEvs ent.middleware
    ++ groupMwAfterEvs m.groups.reverse pat
    ++ mwAfterEvs m.globalMiddleware.reverse
    ++ aHookEvs (m.hooks.onAfter ++ hooksOnAfter ent.hooks)

/-! ## Concrete fixtures used by the witnesses -/

/-- An engine rejecting every user regex (user regexes play no role in
the concrete scenarios below). -/
def eng0 : Eng := fun _ _ _ => false

/-- A handler that returns a constant number. -/
def okNum (n : Int) : Obj → Except Val Val := fun _ => Except.ok (Val.vnum n)

/-- A handler that throws. -/
def hThrow : Obj → Except Val Val := fun _ => Except.error (Val.vstr "boom")

/-- A guard that passes. -/
def gOk (i : Nat) : Guard := { id := i, run := fun _ => Except.ok () }

/-- A guard that blocks by throwing an authorization error. -/
def gFail (i : Nat) : Guard :=
  { id := i, run := fun _ => Except.error (Val.vstr "forbidden") }

/-- An observational middleware with both phases present and no
enrichment. -/
def mwTag (i : Nat) : Middleware :=
  { id := i, onBefore := some (fun _ => Except.ok none),
    onAfter := some (fun _ _ => Except.ok ()) }

/-- C1 fixture: a wildcard entry registered before the exact entry for
`auth.login`. -/
def c1m : Matcher :=
  Matcher.on (Matcher.on Matcher.empty "auth.*" (okNum 1) none) "auth.login" (okNum 2) none

/-- The exact entry stored for `auth.login`. -/
def c1e : Entry :=
  { pattern := "auth.login", handler := okNum 2, regex := none, score := 10,
    hooks := none, middleware := [] }

/-- C2 fixture: a universal glob, then two wildcard entries of equal
specificity that both match the incoming pattern `a`. -/
def c2m : Matcher :=
  Matcher.on (Matcher.on (Matcher.on Matcher.empty "*" (okNum 0) none) "a*" (okNum 1) none)
    "*a" (okNum 2) none

/-- The first-registered highest-specificity entry of `c2m` for the
incoming pattern `a`. -/
def c2e : Entry :=
  { pattern := "a*", handler := okNum 1, regex := some (Rgx.glob (globParse "a*".data)),
    score := 1, hooks := none, middleware := [] }

/-- C3 fixture: guard 1 passes, guard 2 blocks, one global middleware
behind them. -/
def c3m : Matcher :=
  Matcher.addGlobalMiddleware
    (Matcher.addGlobalGuard
      (Matcher.addGlobalGuard (Matcher.on Matcher.empty "t.go" (okNum 7) none) (gOk 1))
      (gFail 2))
    (mwTag 5)

/-- C3 fixture with both guards passing. -/
def c3mok : Matcher :=
  Matcher.addGlobalMiddleware
    (Matcher.addGlobalGuard
      (Matcher.addGlobalGuard (Matcher.on Matcher.empty "t.go" (okNum 7) none) (gOk 1))
      (gOk 2))
    (mwTag 5)

/-- The entry stored for `t.go`. -/
def c3e : Entry :=
  { pattern := "t.go", handler := okNum 7, regex := none, score := 4,
    hooks := none, middleware := [] }

/-- The message context of the C3 scenario. -/
def c3ctx : Obj := mkMessageCtx "t.go" Val.vnull Val.vundef []

/-- C5 fixture: an error hook is installed and the handler throws. -/
def c5m : Matcher :=
  { Matcher.on Matcher.empty "x" hThrow none with onError := true }

/-- The entry stored for `x` in `c5m`. -/
def c5e : Entry :=
  { pattern := "x", handler := hThrow, regex := none, score := 1,
    hooks := none, middleware := [] }

/-- C6 fixture: a registry whose event matcher has a handler returning
`42` for `evt.ping`. -/
def c6reg : Registry :=
  registerEvent Registry.empty "evt.ping" (okNum 42) none

/-- C8 fixture: two global middleware, a group `x.*` with two
middleware, and one handler-level middleware on `x.y`. -/
def c8m : Matcher :=
  Matcher.setHandlerMiddleware
    (Matcher.groupAddMiddleware
      (Matcher.groupAddMiddleware
        (Matcher.createGroup
          (Matcher.addGlobalMiddleware
            (Matcher.addGlobalMiddleware (Matcher.on Matcher.empty "x.y" (okNum 9) none)
              (mwTag 1))
            (mwTag 2))
          "x.*")
        "x.*" (mwTag 3))
      "x.*" (mwTag 4))
    "x.y" [mwTag 5]

/-- The entry stored for `x.y` in `c8m`. -/
def c8e : Entry :=
  { pattern := "x.y", handler := okNum 9, regex := none, score := 3,
    hooks := none, middleware := [mwTag 5] }

/-- The message context of the C8 scenario. -/
def c8ctx : Obj := mkMessageCtx "x.y" Val.vnull Val.vundef []

/-- C9 fixture: one exact entry, one wildcard entry and a catch-all. -/
def c9m : Matcher :=
  Matcher.onFallback
    (Matcher.on (Matcher.on Matcher.empty "a.b" (okNum 1) none) "c*" (okNum 2) none)
    (okNum 99)

/-- C4 fixture: a frame whose payload is a 1000-element array. -/
def c4f : Val := Val.varr (List.replicate 1000 (Val.vnum 7))

/-- C4 fixture: a serializer producing a 1000-byte payload for the
fixture frame. -/
def c4ser : Val → List Nat := fun _ => List.replicate 1000 65

/-- C4 fixture: the matching parser. -/
def c4par : List Nat → Option Val :=
  fun b => if b = List.replicate 1000 65 then some c4f else none

/-- C10 fixture: a single wildcard registration `users.*`. -/
def c10m : Matcher :=
  Matcher.on Matcher.empty "users.*" (okNum 3) none

/-- The entry stored for `users.*`. -/
def c10e : Entry :=
  { pattern := "users.*", handler := okNum 3,
    regex := some (Rgx.glob (globParse "users.*".data)), score := 6,
    hooks := none, middleware := [] }

/-! ## Lemmas -/

/-- Reading back a written big-endian 32-bit length recovers it. -/
theorem readUInt32BE_write (n : Nat) (rest : List Nat) (h : n < 2 ^ 32) :
    readUInt32BE (writeUInt32BE n ++ rest) = n := by
  simp [readUInt32BE, writeUInt32BE, List.getD]
  omega

/-! ## Claim C1 -/

/-- C1: for every pattern string `P` registered as an exact
(non-compiled) entry, `resolve P` returns that entry with
`matchedPattern = P` — whatever other (wildcard/regex/catch-all)
registrations the matcher holds and in whatever order they were made,
since the exact map lookup precedes the scan. -/
theorem exact_entry_always_wins (m : Matcher) (eng : Eng) (P : String) (e : Entry)
    (hget : registryGet m.registry P = some e) (hnc : e.regex = none) :
    resolve m eng P = Resolution.handler e P
    ∧ matchedPatternOf (resolve m eng P) = some P := by
  constructor
  · simp [resolve, hget]
  · simp [resolve, hget, matchedPatternOf]

/-- Witness for C1: `auth.login` is registered exactly after the
wildcard `auth.*` (which also matches it); resolution still picks the
exact entry. -/
theorem exact_entry_always_wins_witness :
    resolve c1m eng0 "auth.login" = Resolution.handler c1e "auth.login"
    ∧ matchedPatternOf (resolve c1m eng0 "auth.login") = some "auth.login" :=
  exact_entry_always_wins c1m eng0 "auth.login" c1e rfl rfl

/-! ## Claim C4 -/

/-- C4: for every frame the serializer/parser pair round-trips (the
JSON builtins on JSON-serializable values), `encode` produces exactly
the 4-byte big-endian payload length followed by the payload, and
`decode` of that buffer reproduces the frame. -/
theorem frame_encode_decode_roundtrip (stringifyBytes : Val → List Nat)
    (parseBytes : List Nat → Option Val) (f : Val)
    (hinv : parseBytes (stringifyBytes f) = some f)
    (hlen : (stringifyBytes f).length < 2 ^ 32) :
    encode stringifyBytes f
      = some (writeUInt32BE (stringifyBytes f).length ++ stringifyBytes f)
    ∧ decode parseBytes (writeUInt32BE (stringifyBytes f).length ++ stringifyBytes f)
      = some f := by
  constructor
  · unfold encode
    rw [if_pos hlen]
  · unfold decode
    rw [readUInt32BE_write _ _ hlen]
    have hdrop : (writeUInt32BE (stringifyBytes f).length ++ stringifyBytes f).drop 4
        = stringifyBytes f := by
      rw [show (4 : Nat) = (writeUInt32BE (stringifyBytes f).length).length from rfl]
      exact List.drop_left _ _
    rw [hdrop, List.take_length, hinv]

set_option maxRecDepth 8192 in
/-- Witness for C4: a concrete 1000-byte payload (the large-message
path) round-trips. -/
theorem frame_encode_decode_roundtrip_witness :
    encode c4ser c4f = some (writeUInt32BE (c4ser c4f).length ++ c4ser c4f)
    ∧ decode c4par (writeUInt32BE (c4ser c4f).length ++ c4ser c4f) = some c4f :=
  frame_encode_decode_roundtrip c4ser c4par c4f (by simp [c4ser, c4par])
    (by rw [show (c4ser c4f).length = 1000 from rfl]; norm_num)

/-! ## Claim C5 -/

/-- C5: whenever the wrapped pipeline (a guard, a middleware
`onBefore`, or the handler) throws, `resolveAndRun` notifies the
installed error hook with that error and rethrows the same error to
the caller; the result is an error whether or not a hook is
installed. -/
theorem pipeline_error_notified_and_rethrown (m : Matcher) (eng : Eng) (p : String)
    (data meta : Val) (store : Obj) (ent : Entry) (mp : String)
    (tr : List Ev) (err : Val)
    (hres : resolve m eng p = Resolution.handler ent mp)
    (hrun : wrapRun m ent (mkMessageCtx p data meta store) = (tr, Except.error err)) :
    resolveAndRun m eng p data meta store = (tr ++ errEvents m err, Except.error err)
    ∧ (m.onError = true → Ev.errorHook err ∈ tr ++ errEvents m err) := by
  constructor
  · simp [resolveAndRun, hres, hrun]
  · intro hhook
    have he : errEvents m err = [Ev.errorHook err] := by simp [errEvents, hhook]
    rw [he]
    simp

/-- Witness for C5: with an error hook installed and a throwing
handler, the call is rejected with the same error and the hook
notification appears in the trace. -/
theorem pipeline_error_notified_and_rethrown_witness :
    resolveAndRun c5m eng0 "x" Val.vnull Val.vundef []
        = ([Ev.handlerRun, Ev.errorHook (Val.vstr "boom")]
            ++ errEvents c5m (Val.vstr "boom"), Except.error (Val.vstr "boom"))
    ∧ (c5m.onError = true →
        Ev.errorHook (Val.vstr "boom")
          ∈ [Ev.handlerRun, Ev.errorHook (Val.vstr "boom")]
              ++ errEvents c5m (Val.vstr "boom")) :=
  pipeline_error_notified_and_rethrown c5m eng0 "x" Val.vnull Val.vundef [] c5e "x"
    [Ev.handlerRun, Ev.errorHook (Val.vstr "boom")] (Val.vstr "boom") rfl rfl

/-! ## Claim C6 -/

/-- C6 (code bug evidence): `resolveAndRunEvent` delegates to
`resolveAndRun`, which returns the handler's result — dispatching an
event whose handler returns `42` resolves with the value `42`, not
with no value (`undefined`), contradicting the documented
`Promise<void>` contract. -/
theorem event_dispatch_returns_handler_value :
    (resolveAndRunEvent c6reg eng0 "evt.ping" Val.vnull Val.vundef []).2
        = Except.ok (Val.vnum 42)
    ∧ (Except.ok (Val.vnum 42) : Except Val Val) ≠ Except.ok Val.vundef := by
  constructor
  · rfl
  · intro h
    injection h with h2
    exact Val.noConfusion h2

/-! ## Claim C7 -/

/-- C7 counterexample: the pattern `/ab/i` is of the regex form with
body `ab`; the claim predicts specificity 2 (the body length with
wildcard metacharacters stripped), but `score` computes 5 — it strips
`*` from the whole pattern string, slashes and flags included. -/
theorem regex_specificity_counterexample :
    regexFormSplit "/ab/i" = some ("ab", "i")
    ∧ score "/ab/i" = 5
    ∧ ¬ score "/ab/i" = (("ab" : String).data.filter (fun c => c ≠ '*')).length := by
  refine ⟨rfl, rfl, ?_⟩
  intro h
  have h5 : score "/ab/i" = 5 := rfl
  have h2 : (("ab" : String).data.filter (fun c => c ≠ '*')).length = 2 := rfl
  rw [h5, h2] at h
  exact absurd h (by decide)

/-- Splitting at the first occurrence reconstructs the list. -/
theorem splitFirst_eq (c : Char) (xs l r : List Char)
    (h : splitFirst c xs = some (l, r)) : xs = l ++ c :: r := by
  induction xs generalizing l r with
  | nil => simp [splitFirst] at h
  | cons x tail ih =>
    by_cases hx : x = c
    · rw [splitFirst, if_pos hx] at h
      simp only [Option.some.injEq, Prod.mk.injEq] at h
      obtain ⟨h1, h2⟩ := h
      subst h1
      subst h2
      simp [hx]
    · rw [splitFirst, if_neg hx] at h
      cases hs : splitFirst c tail with
      | none => rw [hs] at h; simp at h
      | some pr =>
        rw [hs] at h
        simp only [Option.map_some', Option.some.injEq, Prod.mk.injEq] at h
        obtain ⟨h1, h2⟩ := h
        subst h1
        subst h2
        have := ih pr.1 pr.2 hs
        simp [this]

/-- A successful `/body/flags` decomposition reconstructs the pattern's
characters. -/
theorem regexFormSplit_eq (p : String) (b fl : String)
    (h : regexFormSplit p = some (b, fl)) :
    p.data = '/' :: b.data ++ '/' :: fl.data := by
  unfold regexFormSplit at h
  split at h
  case h_1 rest heq =>
    split at h
    case h_1 pr rf rb hs =>
      simp only [Option.some.injEq, Prod.mk.injEq] at h
      obtain ⟨h1, h2⟩ := h
      have hr := splitFirst_eq '/' rest.reverse rf rb hs
      have hrest : rest = rb.reverse ++ '/' :: rf.reverse := by
        have := congrArg List.reverse hr
        simpa using this
      rw [heq, hrest, ← h1, ← h2]
      simp
    case h_2 => simp at h
  case h_2 => simp at h

/-! ## Claim C7 (amended) -/

/-- C7 amended: specificity is 0 for the universal patterns, and
otherwise the length of the whole pattern string with every `*`
removed — in particular, for a `/body/flags` pattern the two slashes
and the flags are counted too (2 + non-`*` body + non-`*` flags), not
just the stripped body; for a `*` pattern it is the number of literal
(non-`*`) characters, as claimed. -/
theorem score_strips_stars_from_whole_pattern (p b fl q : String)
    (hsplit : regexFormSplit p = some (b, fl))
    (hq1 : q ≠ "{any}") (hq2 : q ≠ ".*") :
    score "{any}" = 0 ∧ score ".*" = 0
    ∧ score p = 2 + (b.data.filter (fun c => c ≠ '*')).length
        + (fl.data.filter (fun c => c ≠ '*')).length
    ∧ score q = (q.data.filter (fun c => c ≠ '*')).length := by
  have hdata := regexFormSplit_eq p b fl hsplit
  have h1 : p ≠ "{any}" := by
    intro he
    rw [he, show ("{any}" : String).data = ['\x7b', 'a', 'n', 'y', '\x7d'] from rfl]
      at hdata
    injection hdata with hhd _
    exact absurd hhd (by decide)
  have h2 : p ≠ ".*" := by
    intro he
    rw [he, show (".*" : String).data = ['.', '*'] from rfl] at hdata
    injection hdata with hhd _
    exact absurd hhd (by decide)
  refine ⟨rfl, rfl, ?_, by simp [score, hq1, hq2]⟩
  rw [score, if_neg (by simp [h1, h2]), hdata]
  simp only [List.filter_cons, List.filter_append]
  rw [show (decide (('/' : Char) ≠ '*')) = true from rfl]
  simp [List.length_append]
  omega

/-- Witness for C7: `/ab*/gi` scores 6 = 2 + 2 + 2 (slashes and flags
counted, stars dropped); `users.*` scores its 6 literal characters. -/
theorem score_strips_stars_from_whole_pattern_witness :
    score "{any}" = 0 ∧ score ".*" = 0
    ∧ score "/ab*/gi" = 2 + (("ab*" : String).data.filter (fun c => c ≠ '*')).length
        + (("gi" : String).data.filter (fun c => c ≠ '*')).length
    ∧ score "users.*" = (("users.*" : String).data.filter (fun c => c ≠ '*')).length :=
  score_strips_stars_from_whole_pattern "/ab*/gi" "ab*" "gi" "users.*" rfl
    (by decide) (by decide)

/-! ## Claim C10 -/

/-- `globParse` distributes over append. -/
theorem globParse_append (xs ys : List Char) :
    globParse (xs ++ ys) = globParse xs ++ globParse ys := by
  induction xs with
  | nil => rfl
  | cons c cs ih => simp [globParse, ih]

/-- A star-free character list parses to pure literals. -/
theorem globParse_no_star (xs : List Char) (h : ∀ c ∈ xs, ¬ c = '*') :
    globParse xs = xs.map GlobPart.lit := by
  induction xs with
  | nil => rfl
  | cons c cs ih =>
    have hc := h c (List.mem_cons_self c cs)
    simp [globParse, hc, ih (fun x hx => h x (List.mem_cons_of_mem c hx))]

/-- A literal prefix is consumed one character at a time. -/
theorem globMatches_lit_run (xs : List Char) (ps : List GlobPart) (cs : List Char) :
    globMatches (xs.map GlobPart.lit ++ ps) (xs ++ cs) = globMatches ps cs := by
  induction xs with
  | nil => rfl
  | cons c tail ih => simp [globMatches, ih]

/-- A suffix search with a predicate true on `[]` always succeeds. -/
theorem anySuffix_of_nil_true (m : List Char → Bool) (hm : m [] = true)
    (cs : List Char) : anySuffix m cs = true := by
  induction cs with
  | nil => simpa [anySuffix] using hm
  | cons d ds ih => simp [anySuffix, ih]

/-- A single trailing star matches every remaining character
sequence. -/
theorem globMatches_single_star (cs : List Char) :
    globMatches [GlobPart.star] cs = true := by
  rw [show globMatches [GlobPart.star] cs = anySuffix (globMatches []) cs from rfl]
  exact anySuffix_of_nil_true _ rfl cs

/-- C10: a compiled `*` matches any character sequence, including
sequences containing the `.` delimiter: a star-free prefix followed by
`*` matches that prefix followed by anything, `users.*` compiles to a
glob, its matcher accepts `users.a.b`, and resolving `users.a.b`
against a table holding only `users.*` selects that entry. -/
theorem wildcard_crosses_delimiters (pre t : String) (hns : hasStar pre = false) :
    globMatches (globParse (pre ++ "*").data) (pre ++ t).data = true
    ∧ compile "users.*" = some (Rgx.glob (globParse "users.*".data))
    ∧ rtest eng0 (Rgx.glob (globParse "users.*".data)) "users.a.b" = true
    ∧ resolve c10m eng0 "users.a.b" = Resolution.handler c10e "users.*" := by
  refine ⟨?_, rfl, rfl, rfl⟩
  have hnostar : ∀ c ∈ pre.data, ¬ c = '*' := by
    intro c hc he
    have hany : pre.data.any (fun c => c = '*') = true :=
      List.any_eq_true.mpr ⟨c, hc, by simp [he]⟩
    rw [hasStar] at hns
    rw [hns] at hany
    cases hany
  rw [show (pre ++ "*").data = pre.data ++ ['*'] from by
        rw [String.data_append],
      show (pre ++ t).data = pre.data ++ t.data from String.data_append pre t,
      globParse_append, globParse_no_star pre.data hnostar,
      show globParse ['*'] = [GlobPart.star] from rfl,
      globMatches_lit_run]
  exact globMatches_single_star t.data

/-- Witness for C10: `users.*` (star-free prefix `users.`) matches
`users.a.b`, whose extra `.` crosses the segment boundary. -/
theorem wildcard_crosses_delimiters_witness :
    globMatches (globParse ("users." ++ "*").data) ("users." ++ "a.b" : String).data = true
    ∧ compile "users.*" = some (Rgx.glob (globParse "users.*".data))
    ∧ rtest eng0 (Rgx.glob (globParse "users.*".data)) "users.a.b" = true
    ∧ resolve c10m eng0 "users.a.b" = Resolution.handler c10e "users.*" :=
  wildcard_crosses_delimiters "users." "a.b" rfl

/-- The scan never drops a candidate once one is held. -/
theorem findBestAux_some_total (eng : Eng) (p : String) (rs : List Entry) (a : Entry) :
    ∃ b, findBestAux eng p rs (some a) = some b := by
  induction rs generalizing a with
  | nil => exact ⟨a, rfl⟩
  | cons e rest ih =>
    rw [findBestAux]
    cases hm : entryMatches eng e p with
    | false => rw [stepBest, hm]; simp only [Bool.false_eq_true, if_false]; exact ih a
    | true =>
      rw [stepBest, hm]
      simp only [if_true]
      by_cases hs : e.score > a.score
      · rw [if_pos hs]; exact ih e
      · rw [if_neg hs]; exact ih a

/-- Characterization of the scan from a held candidate `a`: either `a`
survives and every later match scores no higher, or the result is a
later matching entry that strictly beats `a`, strictly beats every
match before itself, and weakly beats every match of the list. -/
theorem findBestAux_spec_some (eng : Eng) (p : String) (rs : List Entry) (a b : Entry)
    (h : findBestAux eng p rs (some a) = some b) :
    (b = a ∧ ∀ e ∈ rs, entryMatches eng e p = true → e.score ≤ a.score)
    ∨ (∃ l1 l2, rs = l1 ++ b :: l2 ∧ entryMatches eng b p = true
        ∧ a.score < b.score
        ∧ (∀ e ∈ l1, entryMatches eng e p = true → e.score < b.score)
        ∧ (∀ e ∈ rs, entryMatches eng e p = true → e.score ≤ b.score)) := by
  induction rs generalizing a with
  | nil =>
    left
    refine ⟨(Option.some.inj h).symm, ?_⟩
    intro e he
    cases he
  | cons e rest ih =>
    rw [findBestAux] at h
    cases hm : entryMatches eng e p with
    | false =>
      rw [stepBest, hm] at h
      simp only [Bool.false_eq_true, if_false] at h
      rcases ih a h with ⟨hb, hbound⟩ | ⟨l1, l2, hr, hmb, hlt, hl1, hall⟩
      · left
        refine ⟨hb, ?_⟩
        intro x hx hmx
        rcases List.mem_cons.mp hx with hx1 | hx2
        · subst hx1; rw [hmx] at hm; cases hm
        · exact hbound x hx2 hmx
      · right
        refine ⟨e :: l1, l2, by rw [hr, List.cons_append], hmb, hlt, ?_, ?_⟩
        · intro x hx hmx
          rcases List.mem_cons.mp hx with hx1 | hx2
          · subst hx1; rw [hmx] at hm; cases hm
          · exact hl1 x hx2 hmx
        · intro x hx hmx
          rcases List.mem_cons.mp hx with hx1 | hx2
          · subst hx1; rw [hmx] at hm; cases hm
          · exact hall x hx2 hmx
    | true =>
      rw [stepBest, hm] at h
      simp only [if_true] at h
      by_cases hs : e.score > a.score
      · rw [if_pos hs] at h
        rcases ih e h with ⟨hb, hbound⟩ | ⟨l1, l2, hr, hmb, hlt, hl1, hall⟩
        · subst hb
          right
          refine ⟨[], rest, rfl, hm, hs, ?_, ?_⟩
          · intro x hx; cases hx
          · intro x hx hmx
            rcases List.mem_cons.mp hx with hx1 | hx2
            · subst hx1; exact Nat.le_refl _
            · exact hbound x hx2 hmx
        · right
          refine ⟨e :: l1, l2, by rw [hr, List.cons_append], hmb, Nat.lt_trans hs hlt, ?_, ?_⟩
          · intro x hx hmx
            rcases List.mem_cons.mp hx with hx1 | hx2
            · subst hx1; exact hlt
            · exact hl1 x hx2 hmx
          · intro x hx hmx
            rcases List.mem_cons.mp hx with hx1 | hx2
            · subst hx1; exact Nat.le_of_lt hlt
            · exact hall x hx2 hmx
      · rw [if_neg hs] at h
        have hes : e.score ≤ a.score := Nat.le_of_not_lt hs
        rcases ih a h with ⟨hb, hbound⟩ | ⟨l1, l2, hr, hmb, hlt, hl1, hall⟩
        · left
          refine ⟨hb, ?_⟩
          intro x hx hmx
          rcases List.mem_cons.mp hx with hx1 | hx2
          · subst hx1; exact hes
          · exact hbound x hx2 hmx
        · right
          refine ⟨e :: l1, l2, by rw [hr, List.cons_append], hmb, hlt, ?_, ?_⟩
          · intro x hx hmx
            rcases List.mem_cons.mp hx with hx1 | hx2
            · subst hx1; exact Nat.lt_of_le_of_lt hes hlt
            · exact hl1 x hx2 hmx
          · intro x hx hmx
            rcases List.mem_cons.mp hx with hx1 | hx2
            · subst hx1; exact Nat.le_of_lt (Nat.lt_of_le_of_lt hes hlt)
            · exact hall x hx2 hmx

/-- Characterization of a successful scan: the result matches, weakly
beats every match of the registry, and strictly beats every match
registered before it. -/
theorem findBest_spec (eng : Eng) (rs : List Entry) (p : String) (b : Entry)
    (h : findBest eng rs p = some b) :
    entryMatches eng b p = true
    ∧ (∀ e ∈ rs, entryMatches eng e p = true → e.score ≤ b.score)
    ∧ (∃ l1 l2, rs = l1 ++ b :: l2
        ∧ ∀ e ∈ l1, entryMatches eng e p = true → e.score < b.score) := by
  induction rs with
  | nil => cases h
  | cons e rest ih =>
    rw [findBest, findBestAux] at h
    cases hm : entryMatches eng e p with
    | false =>
      rw [stepBest, hm] at h
      simp only [Bool.false_eq_true, if_false] at h
      obtain ⟨hmb, hall, l1, l2, hr, hl1⟩ := ih h
      refine ⟨hmb, ?_, e :: l1, l2, by rw [hr, List.cons_append], ?_⟩
      · intro x hx hmx
        rcases List.mem_cons.mp hx with hx1 | hx2
        · subst hx1; rw [hmx] at hm; cases hm
        · exact hall x hx2 hmx
      · intro x hx hmx
        rcases List.mem_cons.mp hx with hx1 | hx2
        · subst hx1; rw [hmx] at hm; cases hm
        · exact hl1 x hx2 hmx
    | true =>
      rw [stepBest, hm] at h
      simp only [if_true] at h
      rcases findBestAux_spec_some eng p rest e b h with ⟨hb, hbound⟩
        | ⟨l1, l2, hr, hmb, hlt, hl1, hall⟩
      · subst hb
        refine ⟨hm, ?_, [], rest, rfl, ?_⟩
        · intro x hx hmx
          rcases List.mem_cons.mp hx with hx1 | hx2
          · subst hx1; exact Nat.le_refl _
          · exact hbound x hx2 hmx
        · intro x hx; cases hx
      · refine ⟨hmb, ?_, e :: l1, l2, by rw [hr, List.cons_append], ?_⟩
        · intro x hx hmx
          rcases List.mem_cons.mp hx with hx1 | hx2
          · subst hx1; exact Nat.le_of_lt hlt
          · exact hall x hx2 hmx
        · intro x hx hmx
          rcases List.mem_cons.mp hx with hx1 | hx2
          · subst hx1; exact hlt
          · exact hl1 x hx2 hmx

/-- The scan fails exactly when no entry's compiled matcher accepts
the incoming pattern. -/
theorem findBest_eq_none_iff (eng : Eng) (rs : List Entry) (p : String) :
    findBest eng rs p = none ↔ ∀ e ∈ rs, entryMatches eng e p = false := by
  induction rs with
  | nil => simp [findBest, findBestAux]
  | cons e rest ih =>
    rw [findBest, findBestAux]
    cases hm : entryMatches eng e p with
    | false =>
      rw [stepBest, hm]
      simp only [Bool.false_eq_true, if_false]
      rw [show findBestAux eng p rest none = findBest eng rest p from rfl, ih]
      constructor
      · intro hall x hx
        rcases List.mem_cons.mp hx with hx1 | hx2
        · subst hx1; exact hm
        · exact hall x hx2
      · intro hall x hx
        exact hall x (List.mem_cons_of_mem e hx)
    | true =>
      rw [stepBest, hm]
      simp only [if_true]
      obtain ⟨b, hb⟩ := findBestAux_some_total eng p rest e
      rw [hb]
      constructor
      · intro hc; cases hc
      · intro hall
        have := hall e (List.mem_cons_self e rest)
        rw [hm] at this
        cases this

/-! ## Claim C2 -/

/-- C2: with no exact entry for the incoming pattern, `resolve`
returns the scan winner: a matching entry whose specificity is maximal
among all matching entries, and which strictly beats every matching
entry registered before it (so on equal specificity the
first-registered entry wins, the comparison being strict `>` over the
insertion-ordered scan); `matchedPattern` is that entry's pattern. -/
theorem highest_specificity_first_wins (m : Matcher) (eng : Eng) (p : String) (b : Entry)
    (hexact : registryGet m.registry p = none)
    (hfound : findBest eng m.registry p = some b) :
    resolve m eng p = Resolution.handler b b.pattern
    ∧ entryMatches eng b p = true
    ∧ (∀ e ∈ m.registry, entryMatches eng e p = true → e.score ≤ b.score)
    ∧ (∃ l1 l2, m.registry = l1 ++ b :: l2
        ∧ ∀ e ∈ l1, entryMatches eng e p = true → e.score < b.score) := by
  obtain ⟨h1, h2, h3⟩ := findBest_spec eng m.registry p b hfound
  exact ⟨by simp [resolve, hexact, hfound], h1, h2, h3⟩

/-- Witness for C2: among `*` (score 0), `a*` (score 1) and `*a`
(score 1), all matching `a` and registered in that order, the scan
returns `a*`: maximal score, first among the ties. -/
theorem highest_specificity_first_wins_witness :
    resolve c2m eng0 "a" = Resolution.handler c2e c2e.pattern
    ∧ entryMatches eng0 c2e "a" = true
    ∧ (∀ e ∈ c2m.registry, entryMatches eng0 e "a" = true → e.score ≤ c2e.score)
    ∧ (∃ l1 l2, c2m.registry = l1 ++ c2e :: l2
        ∧ ∀ e ∈ l1, entryMatches eng0 e "a" = true → e.score < c2e.score) :=
  highest_specificity_first_wins c2m eng0 "a" c2e rfl rfl

/-! ## Claim C9 -/

/-- C9: with a catch-all registered, resolution lands on the fallback
exactly when there is neither an exact entry nor any entry whose
compiled matcher accepts the pattern; the reported `matchedPattern` is
then `null`, and the synthetic fallback context carries the original
pattern both as `incoming` and as `pattern`. -/
theorem catchall_last_resort (m : Matcher) (eng : Eng) (p : String)
    (data meta : Val) (store : Obj)
    (hfb : m.fallback.isSome = true) :
    (resolve m eng p = Resolution.fallbackH
      ↔ (registryGet m.registry p = none
          ∧ ∀ e ∈ m.registry, entryMatches eng e p = false))
    ∧ matchedPatternOf Resolution.fallbackH = none
    ∧ olookup (fallbackCtx p data meta store) "incoming" = some (Val.vstr p)
    ∧ olookup (fallbackCtx p data meta store) "pattern" = some (Val.vstr p) := by
  refine ⟨?_, rfl, rfl, rfl⟩
  constructor
  · intro hres
    rw [resolve] at hres
    cases hget : registryGet m.registry p with
    | some e => rw [hget] at hres; cases hres
    | none =>
      rw [hget] at hres
      cases hfind : findBest eng m.registry p with
      | some b => rw [hfind] at hres; cases hres
      | none => exact ⟨rfl, (findBest_eq_none_iff eng m.registry p).mp hfind⟩
  · rintro ⟨hget, hall⟩
    have hfind := (findBest_eq_none_iff eng m.registry p).mpr hall
    simp [resolve, hget, hfind, hfb]

/-- Witness for C9: resolving the unmatched `zzz` against a table with
an exact entry, a wildcard entry and a catch-all. -/
theorem catchall_last_resort_witness :
    (resolve c9m eng0 "zzz" = Resolution.fallbackH
      ↔ (registryGet c9m.registry "zzz" = none
          ∧ ∀ e ∈ c9m.registry, entryMatches eng0 e "zzz" = false))
    ∧ matchedPatternOf Resolution.fallbackH = none
    ∧ olookup (fallbackCtx "zzz" Val.vnull Val.vundef []) "incoming"
        = some (Val.vstr "zzz")
    ∧ olookup (fallbackCtx "zzz" Val.vnull Val.vundef []) "pattern"
        = some (Val.vstr "zzz") :=
  catchall_last_resort c9m eng0 "zzz" Val.vnull Val.vundef [] rfl

/-- A guard list that fully passes produces exactly its events in
registration order. -/
theorem runGuardList_all_ok (gs : List Guard) (ctx : Obj)
    (h : ∀ g ∈ gs, g.run ctx = Except.ok ()) :
    runGuardList gs ctx = (gs.map (fun g => Ev.guard g.id), Except.ok ()) := by
  induction gs with
  | nil => rfl
  | cons g rest ih =>
    have hg : g.run ctx = Except.ok () := h g (List.mem_cons_self g rest)
    have hr := ih (fun g' hg' => h g' (List.mem_cons_of_mem g hg'))
    rw [runGuardList, hg, hr]
    simp

/-- A guard list whose first failure is `g` runs exactly the passing
guards before it plus `g`, and aborts with `g`'s error. -/
theorem runGuardList_fails (pre : List Guard) (g : Guard) (post : List Guard)
    (ctx : Obj) (e : Val)
    (hpre : ∀ g' ∈ pre, g'.run ctx = Except.ok ())
    (hg : g.run ctx = Except.error e) :
    runGuardList (pre ++ g :: post) ctx
      = (pre.map (fun x => Ev.guard x.id) ++ [Ev.guard g.id], Except.error e) := by
  induction pre with
  | nil => rw [List.nil_append, runGuardList, hg]; rfl
  | cons q rest ih =>
    have hq : q.run ctx = Except.ok () := hpre q (List.mem_cons_self q rest)
    have hr := ih (fun g' hg' => hpre g' (List.mem_cons_of_mem q hg'))
    rw [List.cons_append, runGuardList, hq, hr]
    simp

/-- The trace of a sequenced computation whose first part succeeded
starts with that part's trace. -/
theorem evbind_fst_ok {α β : Type} (tr : List Ev) (a : α)
    (f : α → List Ev × Except Val β) :
    (evbind (tr, Except.ok a) f).1 = tr ++ (f a).1 := by
  rcases h : f a with ⟨tr2, r2⟩
  simp [evbind, h]

/-- The rethrowing `catch` of `wrapWithHooks` only ever appends to the
`try` body's trace. -/
theorem wrapRun_fst (m : Matcher) (ent : Entry) (ctx : Obj) :
    ∃ t, (wrapRun m ent ctx).1 = (wrapInner m ent ctx).1 ++ t := by
  unfold wrapRun
  rcases h : wrapInner m ent ctx with ⟨tr, r⟩
  cases r with
  | ok v => exact ⟨[], by simp⟩
  | error e => exact ⟨errEvents m e, rfl⟩

/-! ## Claim C3 -/

/-- C3: all global guards run first, in registration order, before any
middleware `onBefore` (their events are an exact prefix of the trace);
and when guard `g` is the first to throw, the invocation's whole trace
is the passing guards before `g` plus `g` itself (followed only by the
error-hook notification): the remaining guards, every middleware
phase, and the handler never execute, and the error propagates. -/
theorem global_guards_order_and_abort (m : Matcher) (ent : Entry) (ctx : Obj) :
    ((∀ g ∈ m.globalGuards, g.run ctx = Except.ok ()) →
      ∃ rest, (wrapRun m ent ctx).1
          = m.globalGuards.map (fun g => Ev.guard g.id) ++ rest)
    ∧ (∀ (pre : List Guard) (g : Guard) (post : List Guard) (e : Val),
        m.globalGuards = pre ++ g :: post →
        (∀ g' ∈ pre, g'.run ctx = Except.ok ()) →
        g.run ctx = Except.error e →
        wrapRun m ent ctx
          = (pre.map (fun x => Ev.guard x.id) ++ [Ev.guard g.id] ++ errEvents m e,
             Except.error e)) := by
  constructor
  · intro h
    obtain ⟨t, ht⟩ := wrapRun_fst m ent ctx
    rw [ht]
    unfold wrapInner
    rw [runGuardList_all_ok m.globalGuards ctx h, evbind_fst_ok]
    exact ⟨_, List.append_assoc _ _ _⟩
  · intro pre g post e hsplit hpre hg
    have hin : wrapInner m ent ctx
        = (pre.map (fun x => Ev.guard x.id) ++ [Ev.guard g.id], Except.error e) := by
      unfold wrapInner
      rw [hsplit, runGuardList_fails pre g post ctx e hpre hg]
      rfl
    unfold wrapRun
    rw [hin]

/-- Witness for C3: with guards `1` (passing) and `2` (throwing), the
trace is exactly `[guard 1, guard 2]` and the call aborts; with both
passing, the guard events prefix the trace. -/
theorem global_guards_order_and_abort_witness :
    (∃ rest, (wrapRun c3mok c3e c3ctx).1
        = c3mok.globalGuards.map (fun g => Ev.guard g.id) ++ rest)
    ∧ wrapRun c3m c3e c3ctx
        = ([gOk 1].map (fun x => Ev.guard x.id) ++ [Ev.guard (gFail 2).id]
            ++ errEvents c3m (Val.vstr "forbidden"), Except.error (Val.vstr "forbidden")) := by
  constructor
  · exact (global_guards_order_and_abort c3mok c3e c3ctx).1
      (by
        intro g hg
        rcases List.mem_cons.mp hg with h1 | h2
        · subst h1; rfl
        · rcases List.mem_cons.mp h2 with h3 | h4
          · subst h3; rfl
          · cases h4)
  · exact (global_guards_order_and_abort c3m c3e c3ctx).2 [gOk 1] (gFail 2) []
      (Val.vstr "forbidden") rfl
      (by
        intro g hg
        rcases List.mem_cons.mp hg with h1 | h2
        · subst h1; rfl
        · cases h2)
      rfl

/-- Inversion of a successful sequenced computation: both parts
succeeded and the trace is their concatenation. -/
theorem evbind_ok_inv {α β : Type} {x : List Ev × Except Val α}
    {f : α → List Ev × Except Val β} {tr : List Ev} {v : β}
    (h : evbind x f = (tr, Except.ok v)) :
    ∃ tr1 a tr2, x = (tr1, Except.ok a) ∧ f a = (tr2, Except.ok v)
      ∧ tr = tr1 ++ tr2 := by
  rcases x with ⟨tr1, r⟩
  cases r with
  | error e => simp [evbind] at h
  | ok a =>
    rcases hf : f a with ⟨tr2, r2⟩
    rw [evbind] at h
    rw [hf] at h
    simp only [Prod.mk.injEq] at h
    obtain ⟨h1, h2⟩ := h
    exact ⟨tr1, a, tr2, rfl, by rw [hf, h2], h1.symm⟩

/-- A successful `onAfter` sweep over a middleware list produces
exactly the events of the middleware that have an `onAfter`, in list
order. -/
theorem runMwAfters_ok_trace (mws : List Middleware) (ctx : Obj) (resp : Val)
    (tr : List Ev) (h : runMwAfters mws ctx resp = (tr, Except.ok ())) :
    tr = mwAfterEvs mws := by
  induction mws generalizing tr with
  | nil =>
    rw [runMwAfters] at h
    simp only [Prod.mk.injEq] at h
    rw [← h.1]
    rfl
  | cons mw rest ih =>
    rw [runMwAfters] at h
    cases hO : mw.onAfter with
    | none =>
      rw [hO] at h
      rw [ih tr h]
      simp [mwAfterEvs, hO]
    | some f =>
      rw [hO] at h
      cases hf : f ctx resp with
      | error e => simp only [hf] at h; simp at h
      | ok u =>
        simp only [hf] at h
        rcases hr : runMwAfters rest ctx resp with ⟨tr2, r2⟩
        simp only [hr] at h
        simp only [Prod.mk.injEq] at h
        obtain ⟨h1, h2⟩ := h
        have htr2 := ih tr2 (by rw [hr, h2])
        rw [← h1, htr2]
        simp [mwAfterEvs, hO]

/-- A successful group `onAfter` sweep produces exactly the events of
the matching groups' reversed middleware, in the given group order. -/
theorem runGroupMwAfters_ok_trace (groups : List Group) (ctx : Obj) (resp : Val)
    (tr : List Ev) (h : runGroupMwAfters groups ctx resp = (tr, Except.ok ())) :
    tr = groupMwAfterEvs groups (ctxPattern ctx) := by
  induction groups generalizing tr with
  | nil =>
    rw [runGroupMwAfters] at h
    simp only [Prod.mk.injEq] at h
    rw [← h.1]
    rfl
  | cons g rest ih =>
    rw [runGroupMwAfters] at h
    cases hm : groupKeyMatches (ctxPattern ctx) g.pfx with
    | false =>
      simp only [hm, Bool.false_eq_true, if_false] at h
      rw [ih tr h]
      simp [groupMwAfterEvs, hm]
    | true =>
      simp only [hm, if_true] at h
      obtain ⟨tr1, a, tr2, hx, hf, htr⟩ := evbind_ok_inv h
      have h1 := runMwAfters_ok_trace g.middleware.reverse ctx resp tr1 hx
      have h2 := ih tr2 hf
      rw [htr, h1, h2]
      simp [groupMwAfterEvs, hm]

/-- A successful legacy after-hook sweep produces exactly the hook
events in list order. -/
theorem runAHooks_ok_trace (hs : List AHook) (ctx : Obj) (resp : Val)
    (tr : List Ev) (h : runAHooks hs ctx resp = (tr, Except.ok ())) :
    tr = aHookEvs hs := by
  induction hs generalizing tr with
  | nil =>
    rw [runAHooks] at h
    simp only [Prod.mk.injEq] at h
    rw [← h.1]
    rfl
  | cons hk rest ih =>
    rw [runAHooks] at h
    cases hf : hk.run ctx resp with
    | error e => rw [hf] at h; simp at h
    | ok u =>
      rw [hf] at h
      rcases hr : runAHooks rest ctx resp with ⟨tr2, r2⟩
      rw [hr] at h
      simp only [Prod.mk.injEq] at h
      obtain ⟨h1, h2⟩ := h
      have htr2 := ih tr2 (by rw [hr, h2])
      rw [← h1, htr2]
      simp [aHookEvs]

/-! ## Claim C8 -/

/-- C8: in every invocation whose pipeline completes successfully, the
trace after the handler event is exactly `afterEvs`: handler-level
middleware `onAfter` in registration order, then group middleware
`onAfter` with groups in reverse creation order and middleware within
each group in reverse registration order, then global middleware
`onAfter` in reverse registration order (M2 before M1), then the
legacy after hooks. -/
theorem onafter_phase_order (m : Matcher) (ent : Entry) (ctx : Obj)
    (tr : List Ev) (v : Val)
    (h : wrapRun m ent ctx = (tr, Except.ok v)) :
    ∃ pre pat, tr = pre ++ Ev.handlerRun :: afterEvs m ent pat := by
  have hin : wrapInner m ent ctx = (tr, Except.ok v) := by
    unfold wrapRun at h
    rcases hw : wrapInner m ent ctx with ⟨tr0, r0⟩
    rw [hw] at h
    cases r0 with
    | ok v0 => exact h
    | error e =>
      have := congrArg Prod.snd h
      simp at this
  unfold wrapInner at hin
  obtain ⟨t1, u1, s1, hx1, hk1, he1⟩ := evbind_ok_inv hin
  obtain ⟨t2, u2, s2, hx2, hk2, he2⟩ := evbind_ok_inv hk1
  obtain ⟨t3, p1, s3, hx3, hk3, he3⟩ := evbind_ok_inv hk2
  obtain ⟨t4, p2, s4, hx4, hk4, he4⟩ := evbind_ok_inv hk3
  obtain ⟨t5, p3, s5, hx5, hk5, he5⟩ := evbind_ok_inv hk4
  obtain ⟨t6, u6, s6, hx6, hk6, he6⟩ := evbind_ok_inv hk5
  obtain ⟨t7, resp, s7, hx7, hk7, he7⟩ := evbind_ok_inv hk6
  obtain ⟨t8, u8, s8, hx8, hk8, he8⟩ := evbind_ok_inv hk7
  obtain ⟨t9, u9, s9, hx9, hk9, he9⟩ := evbind_ok_inv hk8
  obtain ⟨t10, u10, s10, hx10, hk10, he10⟩ := evbind_ok_inv hk9
  obtain ⟨t11, u11, s11, hx11, hk11, he11⟩ := evbind_ok_inv hk10
  have ht7 : t7 = [Ev.handlerRun] := (congrArg Prod.fst hx7).symm
  have hs11 : s11 = [] := (congrArg Prod.fst hk11).symm
  refine ⟨t1 ++ t2 ++ t3 ++ t4 ++ t5 ++ t6, ctxPattern p3.1, ?_⟩
  rw [he1, he2, he3, he4, he5, he6, he7, he8, he9, he10, he11, hs11, ht7,
    runMwAfters_ok_trace ent.middleware p3.1 resp t8 hx8,
    runGroupMwAfters_ok_trace m.groups.reverse p3.1 resp t9 hx9,
    runMwAfters_ok_trace m.globalMiddleware.reverse p3.1 resp t10 hx10,
    runAHooks_ok_trace (m.hooks.onAfter ++ hooksOnAfter ent.hooks) p3.1 resp t11 hx11]
  simp [afterEvs, List.append_assoc]

/-- Witness for C8: global middleware 1, 2, group middleware 3, 4 and
handler middleware 5 — the post-handler trace is 5, then 4, 3
(reversed group), then 2, 1 (reversed global). -/
theorem onafter_phase_order_witness :
    ∃ pre pat,
      [Ev.mwBefore 1, Ev.mwBefore 2, Ev.mwBefore 3, Ev.mwBefore 4, Ev.mwBefore 5,
       Ev.handlerRun, Ev.mwAfter 5, Ev.mwAfter 4, Ev.mwAfter 3, Ev.mwAfter 2,
       Ev.mwAfter 1]
        = pre ++ Ev.handlerRun :: afterEvs c8m c8e pat :=
  onafter_phase_order c8m c8e c8ctx
    [Ev.mwBefore 1, Ev.mwBefore 2, Ev.mwBefore 3, Ev.mwBefore 4, Ev.mwBefore 5,
     Ev.handlerRun, Ev.mwAfter 5, Ev.mwAfter 4, Ev.mwAfter 3, Ev.mwAfter 2,
     Ev.mwAfter 1] (Val.vnum 9) rfl

end ElysiaMS
